import Mathlib

/-!
Verification of the skandragon/collatz worker against its specification.

The repository searches ranges of odd integers for counterexamples to the
Collatz conjecture.  The functions below are shallow embeddings of the Go
source: `big.Int` values are modelled as `Nat` (the search only ever touches
non-negative values), `uint64` counters are modelled as `Nat` reduced modulo
`2 ^ 64` at each update, and the unbounded `for` loops are modelled with an
explicit fuel parameter (`none` meaning the loop did not finish within the
given fuel).  The cryptographic digest (`blake3` followed by base64) is kept
abstract as a function parameter `H : String → String`; everything up to the
digest call is modelled concretely.
-/

namespace Collatz

/-- `2 ^ 64`, the modulus of Go's `uint64` arithmetic. -/
def u64Mod : Nat := 2 ^ 64

/-- One Collatz transition, as performed inside `iterate` in
`app/crunch/main.go`: `n.Rsh(n, 1)` when `n.Bit(0) == 0`, otherwise
`n.Mul(n, three); n.Add(n, one)`. -/
def collatzStep (n : Nat) : Nat :=
  if n % 2 = 0 then n / 2 else 3 * n + 1

/-- The value after `k` Collatz transitions starting from `n`. -/
def iterFrom (n : Nat) : Nat → Nat
  | 0 => n
  | k + 1 => iterFrom (collatzStep n) k

/-- Loop body of `iterate` (`app/crunch/main.go`, lines 228-247): starting
from working value `n` and counter `cnt`, repeatedly increment the counter
(a `uint64`, hence the modulus), apply one Collatz transition, and compare
the result against the seed `s` with `n.Cmp(s)`: equality returns
`(true, iterCount)`, dropping below `s` returns `(false, iterCount)`,
anything else continues.  `fuel` bounds the number of loop iterations;
`none` means the loop was still running when the fuel ran out. -/
def iterateAux (s : Nat) : Nat → Nat → Nat → Option (Bool × Nat)
  | 0, _, _ => none
  | fuel + 1, n, cnt =>
    let n' := collatzStep n
    let cnt' := (cnt + 1) % u64Mod
    if n' = s then some (true, cnt')
    else if n' < s then some (false, cnt')
    else iterateAux s fuel n' cnt'

/-- `iterate` from `app/crunch/main.go`: the working value starts as a copy
of the seed (`n := big.NewInt(0); n.Add(n, s)`) and the counter starts at
the `uint64` zero value. -/
def iterate (fuel s : Nat) : Option (Bool × Nat) :=
  iterateAux s fuel s 0

/-- The seeds processed by `run` in `app/crunch/main.go`: the loop body
runs on `current`, then breaks when `current.Cmp(work.EndingValue) > 0`,
otherwise continues with `current + 2`.  Note the value tested *after*
processing, so the first value strictly greater than `ending` is itself
processed. -/
def scanSeedsCrunch (ending current : Nat) : List Nat :=
  if h : ending < current then [current]
  else current :: scanSeedsCrunch ending (current + 2)
termination_by ending + 1 - current
decreasing_by omega

/-- The seeds processed by `run` in the four-worker variant (part_000,
lines 348-392): identical to `scanSeedsCrunch` except that the loop breaks
when `current.Cmp(work.EndingValue) >= 0`. -/
def scanSeedsV2 (ending current : Nat) : List Nat :=
  if h : ending ≤ current then [current]
  else current :: scanSeedsV2 ending (current + 2)
termination_by ending + 1 - current
decreasing_by omega

/-- The per-seed accumulation performed by `run` (both variants, lines
192-201 of `app/crunch/main.go`), expressed as a fold over an explicit
list of seeds: call the stepper, add its count into the `uint64` total,
update the running maximum (`if maxIterations < iterCount`), and append
the seed to the interesting list when the stepper reported `true`. -/
def runFold (fuel : Nat) : List Nat → Nat → Nat → List Nat → Option (Nat × Nat × List Nat)
  | [], tot, mx, found => some (tot, mx, found)
  | seed :: rest, tot, mx, found =>
    match iterate fuel seed with
    | none => none
    | some (b, c) =>
      runFold fuel rest ((tot + c) % u64Mod) (if mx < c then c else mx)
        (if b then found ++ [seed] else found)

/-- Loop of `run` in `app/crunch/main.go` (lines 174-218), with the logging
elided: process `current` with `iterate`, accumulate the totals, break once
`current.Cmp(work.EndingValue) > 0`, else advance by two. -/
def runAux (fuel ending current tot mx : Nat) (found : List Nat) : Option (Nat × Nat × List Nat) :=
  match iterate fuel current with
  | none => none
  | some (b, c) =>
    let tot' := (tot + c) % u64Mod
    let mx' := if mx < c then c else mx
    let found' := if b then found ++ [current] else found
    if h : ending < current then some (tot', mx', found')
    else runAux fuel ending (current + 2) tot' mx' found'
termination_by ending + 1 - current
decreasing_by omega

/-- `run` from `app/crunch/main.go`: `current` starts as a copy of
`work.StartingValue`, the accumulators start at zero and the interesting
list starts empty. -/
def run (fuel startingValue endingValue : Nat) : Option (Nat × Nat × List Nat) :=
  runAux fuel endingValue startingValue 0 0 []

/-- Loop of `run` in the four-worker variant (part_000): the break test is
`current.Cmp(work.EndingValue) >= 0`. -/
def runV2Aux (fuel ending current tot mx : Nat) (found : List Nat) : Option (Nat × Nat × List Nat) :=
  match iterate fuel current with
  | none => none
  | some (b, c) =>
    let tot' := (tot + c) % u64Mod
    let mx' := if mx < c then c else mx
    let found' := if b then found ++ [current] else found
    if h : ending ≤ current then some (tot', mx', found')
    else runV2Aux fuel ending (current + 2) tot' mx' found'
termination_by ending + 1 - current
decreasing_by omega

/-- `run` of the four-worker variant (part_000, lines 348-392). -/
def runV2 (fuel startingValue endingValue : Nat) : Option (Nat × Nat × List Nat) :=
  runV2Aux fuel endingValue startingValue 0 0 []

/-- The partitioning loop of `main` in the four-worker variant (part_000,
lines 317-344): each round hands out the packet
`(starting, starting + blocksize)` with `starting` equal to the running
`initial`, then advances `initial` by `blocksize`.  The worker count is the
loop bound (the source uses the literal 4), `B` is `blocksize` and `I` is
the running `initial`. -/
def partition : Nat → Nat → Nat → List (Nat × Nat)
  | 0, _, _ => []
  | w + 1, B, I => (I, I + B) :: partition w B (I + B)

/-- Modelled from the spec: the Result Aggregator of §4.5 is absent from
the source — `main` in part_000 only joins the workers (`wg.Wait`) and
logs each worker's `(totalIterations, maxIterations, interestingNumbers)`
triple separately.  Per the spec, the combination sums `totalIterations`
across workers, takes the max of all `maxIterations`, and concatenates the
`interestingSeeds` sequences preserving each worker's internal order. -/
def aggregate (results : List (Nat × Nat × List Nat)) : Nat × Nat × List Nat :=
  results.foldl (fun acc r => (acc.1 + r.1, Nat.max acc.2.1 r.2.1, acc.2.2 ++ r.2.2))
    (0, 0, [])

/-- The two `big.Int` cells alive inside `iterate`: the caller's seed cell
`s` and the local working cell `n`. -/
structure IterState where
  s : Nat
  n : Nat

/-- Cell-level model of the `iterate` loop, tracking which cell each
`big.Int` operation writes: `Rsh`, `Mul` and `Add` all target the local
cell `n`; the seed cell `s` is only read (by `n.Cmp(s)`).  Returns the
result together with the final state of both cells. -/
def iterateStAux : Nat → IterState → Nat → Option ((Bool × Nat) × IterState)
  | 0, _, _ => none
  | fuel + 1, st, cnt =>
    let st1 : IterState :=
      if st.n % 2 = 0 then { st with n := st.n / 2 } else { st with n := 3 * st.n + 1 }
    let cnt' := (cnt + 1) % u64Mod
    if st1.n = st1.s then some ((true, cnt'), st1)
    else if st1.n < st1.s then some ((false, cnt'), st1)
    else iterateStAux fuel st1 cnt'

/-- The three `big.Int` cells alive inside `run`: the packet's
`StartingValue` and `EndingValue` cells and the local `current` cell. -/
structure RunState where
  startingValue : Nat
  endingValue : Nat
  current : Nat

/-- Cell-level model of the `run` loop: `current` is passed to `iterate`
as that callee's seed cell, and its value after the call is whatever the
callee left in that cell (`ist.s`); `current.Add(current, two)` writes
only `current`; the packet cells are only read.  The outer `fuel` bounds
the number of scan-loop rounds. -/
def runStAux (iterFuel : Nat) : Nat → RunState → Nat → Nat → List Nat →
    Option ((Nat × Nat × List Nat) × RunState)
  | 0, _, _, _, _ => none
  | fuel + 1, st, tot, mx, found =>
    match iterateStAux iterFuel ⟨st.current, st.current⟩ 0 with
    | none => none
    | some ((b, c), ist) =>
      let st1 : RunState := { st with current := ist.s }
      let tot' := (tot + c) % u64Mod
      let mx' := if mx < c then c else mx
      let found' := if b then found ++ [st1.current] else found
      if st1.endingValue < st1.current then some ((tot', mx', found'), st1)
      else runStAux iterFuel fuel { st1 with current := st1.current + 2 } tot' mx' found'

/-- `UserCredentials` (part_000): user id, secret version and secret. -/
structure UserCredentials where
  UserID : String
  UserSecretVersion : String
  UserSecret : String
deriving DecidableEq

/-- The fields of `WorkPacket` that the evidence hash consumes (the
timestamps `AssignedOn` and `Expiry` never reach the hash); the `big.Int`
bounds are modelled as `Nat`. -/
structure WorkPacket where
  ID : String
  Nonce : String
  StartingValue : Nat
  EndingValue : Nat
deriving DecidableEq

/-- `WorkEvidence`: the two `uint64` counters, modelled as `Nat`. -/
structure WorkEvidence where
  TotalIterations : Nat
  MaxIterations : Nat
deriving DecidableEq

/-- `WorkAuthenticator`: the versioned digest record. -/
structure WorkAuthenticator where
  AuthenticatorVersion : String
  UserSecretVersion : String
  Authenticator : String
deriving DecidableEq

/-- The canonical string hashed by `evidenceHash` in part_000 (lines
124-138): `fmt.Sprintf("%s:%s:%s:%s:%s:%s:%s:%d:%d", work.ID, work.Nonce,
work.StartingValue, work.EndingValue, user.UserID,
user.UserSecretVersion, user.UserSecret, evidence.TotalIterations,
evidence.MaxIterations)`, with `%s` on a `*big.Int` and `%d` on a
`uint64` both printing the decimal representation. -/
def evidenceString (user : UserCredentials) (work : WorkPacket)
    (evidence : WorkEvidence) : String :=
  work.ID ++ ":" ++ work.Nonce ++ ":" ++ toString work.StartingValue ++ ":" ++
    toString work.EndingValue ++ ":" ++ user.UserID ++ ":" ++ user.UserSecretVersion ++ ":" ++
    user.UserSecret ++ ":" ++ toString evidence.TotalIterations ++ ":" ++
    toString evidence.MaxIterations

/-- `evidenceHash` of part_000: hash the canonical string (the digest and
base64 step `base64(blake3(utf8 s))` is the abstract parameter `H`) and
return the versioned authenticator record. -/
def evidenceHash (H : String → String) (user : UserCredentials) (work : WorkPacket)
    (evidence : WorkEvidence) : WorkAuthenticator :=
  { AuthenticatorVersion := "v1-blake3",
    UserSecretVersion := user.UserSecretVersion,
    Authenticator := H (evidenceString user work evidence) }

/-- The canonical string hashed by `evidenceHash` in `app/crunch/main.go`
(lines 120-133): `fmt.Sprintf("%s:%s:%s:%s:%d:%d", work.ID, work.Nonce,
work.StartingValue, work.EndingValue, evidence.TotalIterations,
evidence.MaxIterations)` — no credential field is included. -/
def evidenceStringCrunch (work : WorkPacket) (evidence : WorkEvidence) : String :=
  work.ID ++ ":" ++ work.Nonce ++ ":" ++ toString work.StartingValue ++ ":" ++
    toString work.EndingValue ++ ":" ++ toString evidence.TotalIterations ++ ":" ++
    toString evidence.MaxIterations

/-- `evidenceHash` of `app/crunch/main.go`: same record shape, but the
hashed string omits every credential field. -/
def evidenceHashCrunch (H : String → String) (user : UserCredentials) (work : WorkPacket)
    (evidence : WorkEvidence) : WorkAuthenticator :=
  { AuthenticatorVersion := "v1-blake3",
    UserSecretVersion := user.UserSecretVersion,
    Authenticator := H (evidenceStringCrunch work evidence) }

/-- The decimal digit characters of `n`, most significant first: the
reference characterisation of `Nat.repr`. -/
def decChars (n : Nat) : List Char :=
  if _h : n < 10 then [Nat.digitChar n]
  else decChars (n / 10) ++ [Nat.digitChar (n % 10)]
termination_by n
decreasing_by exact Nat.div_lt_self (by omega) (by omega)

/-! ### Properties of the stepper -/

theorem iterFrom_one (n : Nat) : iterFrom n 1 = collatzStep n := rfl

theorem iterFrom_succ (n k : Nat) : iterFrom n (k + 1) = iterFrom (collatzStep n) k := rfl

/-- Soundness of the stepper loop body: a `some` answer after at most `fuel`
rounds names the exact step `k` at which the working value first left the
region strictly above the seed, together with the direction it left in. -/
theorem iterateAux_sound (s : Nat) :
    ∀ fuel n cnt b c, iterateAux s fuel n cnt = some (b, c) →
    ∃ k, 1 ≤ k ∧ k ≤ fuel ∧ c = (cnt + k) % u64Mod ∧
      (∀ j, 1 ≤ j → j < k → s < iterFrom n j) ∧
      (b = true → iterFrom n k = s) ∧ (b = false → iterFrom n k < s) := by
  intro fuel
  induction fuel with
  | zero => intro n cnt b c h; simp [iterateAux] at h
  | succ fuel ih =>
    intro n cnt b c h
    simp only [iterateAux] at h
    by_cases h1 : collatzStep n = s
    · rw [if_pos h1] at h
      simp only [Option.some.injEq, Prod.mk.injEq] at h
      obtain ⟨hb, hc⟩ := h
      subst hb
      refine ⟨1, Nat.le_refl 1, by omega, hc.symm, by omega, fun _ => h1, ?_⟩
      intro hf; exact absurd hf (by decide)
    · rw [if_neg h1] at h
      by_cases h2 : collatzStep n < s
      · rw [if_pos h2] at h
        simp only [Option.some.injEq, Prod.mk.injEq] at h
        obtain ⟨hb, hc⟩ := h
        subst hb
        refine ⟨1, Nat.le_refl 1, by omega, hc.symm, by omega, ?_, fun _ => h2⟩
        intro hf; exact absurd hf (by decide)
      · rw [if_neg h2] at h
        obtain ⟨k, hk1, hk2, hk3, hk4, hk5, hk6⟩ := ih _ _ _ _ h
        have hgt : s < collatzStep n := by omega
        refine ⟨k + 1, by omega, by omega, ?_, ?_, ?_, ?_⟩
        · rw [hk3, Nat.mod_add_mod]
          congr 1
          omega
        · intro j hj1 hj2
          match j, hj1 with
          | 1, _ => simpa [iterFrom_one] using hgt
          | j + 2, _ =>
            rw [iterFrom_succ]
            exact hk4 (j + 1) (by omega) (by omega)
        · intro hb; rw [iterFrom_succ]; exact hk5 hb
        · intro hb; rw [iterFrom_succ]; exact hk6 hb

/-- Claim C1: for every odd positive seed `s`, whenever the stepper
`iterate` returns within its fuel it reports a Boolean verdict and a count
`c ≥ 1` equal to the number of Collatz transitions applied; every strictly
earlier iterated value stayed strictly above `s`, the verdict is `true`
exactly when the `c`-th iterated value equals `s`, and `false` exactly when
it dropped below `s` — so exactly one of the two outcomes holds. -/
theorem c1_stepper_spec {fuel s : Nat} {b : Bool} {c : Nat}
    (_hodd : Odd s) (_hpos : 0 < s) (hfuel : fuel < u64Mod)
    (h : iterate fuel s = some (b, c)) :
    1 ≤ c ∧ c ≤ fuel ∧ (∀ j, 1 ≤ j → j < c → s < iterFrom s j) ∧
      (b = true ↔ iterFrom s c = s) ∧ (b = false ↔ iterFrom s c < s) := by
  obtain ⟨k, hk1, hk2, hk3, hk4, hk5, hk6⟩ := iterateAux_sound s fuel s 0 b c h
  have hck : c = k := by
    rw [hk3, Nat.zero_add, Nat.mod_eq_of_lt (lt_of_le_of_lt hk2 hfuel)]
  subst hck
  cases b with
  | false =>
    have hlt := hk6 rfl
    refine ⟨hk1, hk2, hk4, ?_, ?_⟩
    · exact ⟨fun hf => absurd hf (by decide), fun he => absurd he (by omega)⟩
    · exact ⟨fun _ => hlt, fun _ => rfl⟩
  | true =>
    have heq := hk5 rfl
    refine ⟨hk1, hk2, hk4, ?_, ?_⟩
    · exact ⟨fun _ => heq, fun _ => rfl⟩
    · exact ⟨fun hf => absurd hf (by decide), fun hlt => absurd hlt (by omega)⟩

/-- Witness for claim C1 at the concrete seed 3 with fuel 100: `iterate`
returns `(false, 6)` and the specification instantiates accordingly. -/
theorem c1_stepper_spec_witness :
    1 ≤ 6 ∧ 6 ≤ 100 ∧ (∀ j, 1 ≤ j → j < 6 → 3 < iterFrom 3 j) ∧
      (false = true ↔ iterFrom 3 6 = 3) ∧ (false = false ↔ iterFrom 3 6 < 3) :=
  c1_stepper_spec ⟨1, by norm_num⟩ (by decide) (by decide) rfl

/-- Claim C7: the stepper does not special-case the trivial 1→4→2→1 cycle:
seed 1 follows exactly that trajectory and is reported as interesting with
iteration count 3 (a loop back to the starting value). -/
theorem c7_trivial_cycle_not_special_cased :
    iterate 10 1 = some (true, 3) ∧ iterFrom 1 1 = 4 ∧ iterFrom 1 2 = 2 ∧
      iterFrom 1 3 = 1 :=
  ⟨rfl, rfl, rfl, rfl⟩

set_option maxRecDepth 8000 in
/-- Claim C8: the stepper terminates on the canonical test seeds: the
golden seed 27 terminates with verdict `false` after exactly 96 Collatz
transitions (its trajectory first drops below 27, reaching 23), and seed 1
terminates immediately as the degenerate interesting case. -/
theorem c8_golden_seeds :
    iterate 200 27 = some (false, 96) ∧ iterFrom 27 96 = 23 ∧ 23 < 27 ∧
      iterate 100 1 = some (true, 3) :=
  ⟨by decide, by decide, by decide, rfl⟩

/-! ### The scan performed by the worker engine -/

theorem scanSeedsCrunch_head (ending current : Nat) :
    (scanSeedsCrunch ending current).head? = some current := by
  rw [scanSeedsCrunch.eq_def]
  by_cases h : ending < current
  · rw [dif_pos h]; rfl
  · rw [dif_neg h]; rfl

/-- Membership in the part_000 scan: for odd bounds of matching parity the
scanned seeds are exactly the odd values between the bounds inclusive. -/
theorem scanSeedsV2_mem {current ending : Nat} (hc : Odd current) (he : Odd ending)
    (hle : current ≤ ending) :
    ∀ x, x ∈ scanSeedsV2 ending current ↔ (Odd x ∧ current ≤ x ∧ x ≤ ending) := by
  have key : ∀ m current, ending + 1 - current = m → Odd current → current ≤ ending →
      ∀ x, x ∈ scanSeedsV2 ending current ↔ (Odd x ∧ current ≤ x ∧ x ≤ ending) := by
    intro m
    induction m using Nat.strong_induction_on with
    | _ m ih =>
      intro current hm hc hle x
      rw [scanSeedsV2.eq_def]
      by_cases h : ending ≤ current
      · have hce : current = ending := Nat.le_antisymm hle h
        subst hce
        rw [dif_pos h]
        simp only [List.mem_singleton]
        constructor
        · rintro rfl; exact ⟨hc, Nat.le_refl _, Nat.le_refl _⟩
        · rintro ⟨hx, h1, h2⟩; omega
      · rw [dif_neg h]
        have hlt : current < ending := by omega
        have hc2 : Odd (current + 2) := by
          obtain ⟨a, ha⟩ := hc; exact ⟨a + 1, by omega⟩
        have hle2 : current + 2 ≤ ending := by
          obtain ⟨a, ha⟩ := hc; obtain ⟨b, hb⟩ := he; omega
        have hrec := ih (ending + 1 - (current + 2)) (by omega) (current + 2) rfl hc2 hle2 x
        simp only [List.mem_cons, hrec]
        constructor
        · rintro (rfl | ⟨hx, h1, h2⟩)
          · exact ⟨hc, Nat.le_refl _, Nat.le_of_lt hlt⟩
          · exact ⟨hx, by omega, h2⟩
        · rintro ⟨hx, h1, h2⟩
          by_cases hxc : x = current
          · exact Or.inl hxc
          · refine Or.inr ⟨hx, ?_, h2⟩
            obtain ⟨a, ha⟩ := hc; obtain ⟨b, hb⟩ := hx; omega
  exact key _ current rfl hc hle

/-- The crunch scan visits exactly the part_000 seeds plus one extra seed
two beyond the ending value. -/
theorem scanSeedsCrunch_eq_append {current ending : Nat} (hc : Odd current)
    (he : Odd ending) (hle : current ≤ ending) :
    scanSeedsCrunch ending current = scanSeedsV2 ending current ++ [ending + 2] := by
  have key : ∀ m current, ending + 1 - current = m → Odd current → current ≤ ending →
      scanSeedsCrunch ending current = scanSeedsV2 ending current ++ [ending + 2] := by
    intro m
    induction m using Nat.strong_induction_on with
    | _ m ih =>
      intro current hm hc hle
      rw [scanSeedsCrunch.eq_def, scanSeedsV2.eq_def]
      by_cases h : ending ≤ current
      · have hce : current = ending := Nat.le_antisymm hle h
        rw [dif_neg (by omega : ¬ ending < current), dif_pos h]
        rw [scanSeedsCrunch.eq_def, dif_pos (by omega : ending < current + 2)]
        rw [hce]
        rfl
      · have hc2 : Odd (current + 2) := by
          obtain ⟨a, ha⟩ := hc; exact ⟨a + 1, by omega⟩
        have hle2 : current + 2 ≤ ending := by
          obtain ⟨a, ha⟩ := hc; obtain ⟨b, hb⟩ := he; omega
        rw [dif_neg (by omega : ¬ ending < current), dif_neg h]
        rw [ih (ending + 1 - (current + 2)) (by omega) (current + 2) rfl hc2 hle2]
        rfl
  exact key _ current rfl hc hle

/-- The crunch scan advances by exactly two at every step. -/
theorem scanSeedsCrunch_chain (ending : Nat) :
    ∀ current, List.Chain' (fun a b => b = a + 2) (scanSeedsCrunch ending current) := by
  have key : ∀ m current, ending + 1 - current = m →
      List.Chain' (fun a b => b = a + 2) (scanSeedsCrunch ending current) := by
    intro m
    induction m using Nat.strong_induction_on with
    | _ m ih =>
      intro current hm
      rw [scanSeedsCrunch.eq_def]
      by_cases h : ending < current
      · rw [dif_pos h]; simp
      · rw [dif_neg h]
        rw [List.chain'_cons']
        refine ⟨?_, ih (ending + 1 - (current + 2)) (by omega) (current + 2) rfl⟩
        intro y hy
        rw [scanSeedsCrunch_head] at hy
        simp only [Option.mem_some_iff] at hy
        omega
  exact fun current => key _ current rfl

/-- The crunch worker loop is the per-seed fold over exactly the seeds in
`scanSeedsCrunch`. -/
theorem runAux_eq_runFold (fuel ending : Nat) :
    ∀ current tot mx found,
      runAux fuel ending current tot mx found =
        runFold fuel (scanSeedsCrunch ending current) tot mx found := by
  have key : ∀ m current, ending + 1 - current = m → ∀ tot mx found,
      runAux fuel ending current tot mx found =
        runFold fuel (scanSeedsCrunch ending current) tot mx found := by
    intro m
    induction m using Nat.strong_induction_on with
    | _ m ih =>
      intro current hm tot mx found
      rw [runAux.eq_def, scanSeedsCrunch.eq_def]
      by_cases h : ending < current
      · rw [dif_pos h]
        cases hit : iterate fuel current with
        | none => simp only [hit, runFold]
        | some bc =>
          obtain ⟨b, c⟩ := bc
          simp only [hit, runFold, dif_pos h]
      · rw [dif_neg h]
        cases hit : iterate fuel current with
        | none => simp only [hit, runFold]
        | some bc =>
          obtain ⟨b, c⟩ := bc
          simp only [hit, runFold, dif_neg h]
          exact ih (ending + 1 - (current + 2)) (by omega) (current + 2) rfl _ _ _
  exact fun current => key _ current rfl

/-- The part_000 worker loop is the per-seed fold over exactly the seeds in
`scanSeedsV2`. -/
theorem runV2Aux_eq_runFold (fuel ending : Nat) :
    ∀ current tot mx found,
      runV2Aux fuel ending current tot mx found =
        runFold fuel (scanSeedsV2 ending current) tot mx found := by
  have key : ∀ m current, ending + 1 - current = m → ∀ tot mx found,
      runV2Aux fuel ending current tot mx found =
        runFold fuel (scanSeedsV2 ending current) tot mx found := by
    intro m
    induction m using Nat.strong_induction_on with
    | _ m ih =>
      intro current hm tot mx found
      rw [runV2Aux.eq_def, scanSeedsV2.eq_def]
      by_cases h : ending ≤ current
      · rw [dif_pos h]
        cases hit : iterate fuel current with
        | none => simp only [hit, runFold]
        | some bc =>
          obtain ⟨b, c⟩ := bc
          simp only [hit, runFold, dif_pos h]
      · rw [dif_neg h]
        cases hit : iterate fuel current with
        | none => simp only [hit, runFold]
        | some bc =>
          obtain ⟨b, c⟩ := bc
          simp only [hit, runFold, dif_neg h]
          exact ih (ending + 1 - (current + 2)) (by omega) (current + 2) rfl _ _ _
  exact fun current => key _ current rfl

theorem scanSeedsCrunch_five_one : scanSeedsCrunch 5 1 = [1, 3, 5, 7] := by
  simp [scanSeedsCrunch]

/-- Claim C2 (amended): for a packet with odd StartingValue, odd
EndingValue and EndingValue ≥ StartingValue, the part_000 worker engine
invokes the stepper exactly on the odd integers from StartingValue to
EndingValue inclusive; the `app/crunch/main.go` worker engine additionally
processes the first seed strictly beyond EndingValue (namely
EndingValue + 2), because its loop breaks only after processing the first
value for which `current > endingValue`.  Both visit the seeds in
increasing order stepping by 2. -/
theorem c2_worker_scan_range {start ending : Nat}
    (hs : Odd start) (he : Odd ending) (hle : start ≤ ending) :
    (∀ x, x ∈ scanSeedsV2 ending start ↔ (Odd x ∧ start ≤ x ∧ x ≤ ending)) ∧
    scanSeedsCrunch ending start = scanSeedsV2 ending start ++ [ending + 2] ∧
    List.Chain' (fun a b => b = a + 2) (scanSeedsCrunch ending start) ∧
    (∀ fuel, run fuel start ending = runFold fuel (scanSeedsCrunch ending start) 0 0 []) ∧
    (∀ fuel, runV2 fuel start ending = runFold fuel (scanSeedsV2 ending start) 0 0 []) :=
  ⟨scanSeedsV2_mem hs he hle, scanSeedsCrunch_eq_append hs he hle,
    scanSeedsCrunch_chain ending start,
    fun fuel => runAux_eq_runFold fuel ending start 0 0 [],
    fun fuel => runV2Aux_eq_runFold fuel ending start 0 0 []⟩

/-- Witness for claim C2 (amended) on the packet `[1, 5]`. -/
theorem c2_worker_scan_range_witness :
    (∀ x, x ∈ scanSeedsV2 5 1 ↔ (Odd x ∧ 1 ≤ x ∧ x ≤ 5)) ∧
    scanSeedsCrunch 5 1 = scanSeedsV2 5 1 ++ [5 + 2] ∧
    List.Chain' (fun a b => b = a + 2) (scanSeedsCrunch 5 1) ∧
    (∀ fuel, run fuel 1 5 = runFold fuel (scanSeedsCrunch 5 1) 0 0 []) ∧
    (∀ fuel, runV2 fuel 1 5 = runFold fuel (scanSeedsV2 5 1) 0 0 []) :=
  c2_worker_scan_range (by decide) (by decide) (by decide)

/-- Counterexample to claim C2 as stated: on the packet with StartingValue
1 and EndingValue 5 (odd start, ending ≥ start), the `app/crunch/main.go`
worker loop processes the seed 7, which lies strictly beyond EndingValue,
so the processed set is not the odd integers from 1 to 5 inclusive. -/
theorem c2_counterexample :
    Odd 1 ∧ (1 : Nat) ≤ 5 ∧
      run 100 1 5 = runFold 100 (scanSeedsCrunch 5 1) 0 0 [] ∧
      scanSeedsCrunch 5 1 = [1, 3, 5, 7] ∧ 7 ∈ scanSeedsCrunch 5 1 ∧ ¬ (7 ≤ 5) :=
  ⟨by decide, by decide, runAux_eq_runFold 100 5 1 0 0 [],
    scanSeedsCrunch_five_one, by rw [scanSeedsCrunch_five_one]; simp, by decide⟩

/-! ### The range partitioner -/

theorem partition_length : ∀ (W B I : Nat), (partition W B I).length = W := by
  intro W
  induction W with
  | zero => intro B I; rfl
  | succ w ih => intro B I; simp [partition, ih]

theorem partition_getElem : ∀ (W B I k : Nat), k < W →
    (partition W B I)[k]? = some (I + k * B, I + k * B + B) := by
  intro W
  induction W with
  | zero => intro B I k hk; omega
  | succ w ih =>
    intro B I k hk
    cases k with
    | zero => simp [partition]
    | succ k =>
      show ((I, I + B) :: partition w B (I + B))[k + 1]? = _
      rw [List.getElem?_cons_succ, ih B (I + B) k (by omega)]
      have h1 : I + B + k * B = I + (k + 1) * B := by ring
      rw [h1]

theorem partition_start_lb : ∀ (W B I : Nat), ∀ p ∈ partition W B I,
    I ≤ p.1 ∧ p.2 = p.1 + B := by
  intro W
  induction W with
  | zero => intro B I p hp; simp [partition] at hp
  | succ w ih =>
    intro B I p hp
    rcases List.mem_cons.mp hp with rfl | hp
    · exact ⟨Nat.le_refl _, rfl⟩
    · obtain ⟨h1, h2⟩ := ih B (I + B) p hp
      exact ⟨by omega, h2⟩

theorem partition_pairwise (B : Nat) (hB : 1 ≤ B) : ∀ (W I : Nat),
    List.Pairwise (fun p q => p.1 < q.1 ∧ p.2 ≤ q.1) (partition W B I) := by
  intro W
  induction W with
  | zero => intro I; exact List.Pairwise.nil
  | succ w ih =>
    intro I
    refine List.Pairwise.cons ?_ (ih (I + B))
    intro q hq
    obtain ⟨h1, _⟩ := partition_start_lb w B (I + B) q hq
    exact ⟨by omega, by omega⟩

theorem partition_cover : ∀ (W B I x : Nat),
    (∃ p ∈ partition W B I, p.1 ≤ x ∧ x < p.2) ↔ (I ≤ x ∧ x < I + W * B) := by
  intro W
  induction W with
  | zero =>
    intro B I x
    simp [partition]
  | succ w ih =>
    intro B I x
    have hsm : (w + 1) * B = w * B + B := Nat.succ_mul w B
    constructor
    · rintro ⟨p, hp, hx1, hx2⟩
      rcases List.mem_cons.mp hp with rfl | hp
      · simp only at hx1 hx2
        omega
      · have := (ih B (I + B) x).mp ⟨p, hp, hx1, hx2⟩
        omega
    · rintro ⟨h1, h2⟩
      by_cases hx : x < I + B
      · exact ⟨(I, I + B), List.mem_cons_self _ _, h1, hx⟩
      · obtain ⟨p, hp, hx1, hx2⟩ := (ih B (I + B) x).mpr ⟨by omega, by omega⟩
        exact ⟨p, List.mem_cons_of_mem _ hp, hx1, hx2⟩

/-- Claim C3: for worker count `W ≥ 1`, block size `B` and odd initial
value `I`, the partitioning loop produces exactly `W` contiguous packets in
increasing order, packet `k` being `(I + k·B, I + k·B + B)`; the half-open
ranges `[start, end)` of the packets are pairwise non-overlapping and their
union covers exactly `[I, I + W·B)`. -/
theorem c3_partition_spec {W B I : Nat} (_hW : 1 ≤ W) (hB : 1 ≤ B) (_hI : Odd I) :
    (partition W B I).length = W ∧
    (∀ k, k < W → (partition W B I)[k]? = some (I + k * B, I + k * B + B)) ∧
    List.Pairwise (fun p q => p.1 < q.1 ∧ p.2 ≤ q.1) (partition W B I) ∧
    (∀ x, (∃ p ∈ partition W B I, p.1 ≤ x ∧ x < p.2) ↔ (I ≤ x ∧ x < I + W * B)) :=
  ⟨partition_length W B I, fun k hk => partition_getElem W B I k hk,
    partition_pairwise B hB W I, fun x => partition_cover W B I x⟩

/-- Witness for claim C3 with 2 workers, block size 4, initial value 1. -/
theorem c3_partition_spec_witness :
    (partition 2 4 1).length = 2 ∧
    (∀ k, k < 2 → (partition 2 4 1)[k]? = some (1 + k * 4, 1 + k * 4 + 4)) ∧
    List.Pairwise (fun p q => p.1 < q.1 ∧ p.2 ≤ q.1) (partition 2 4 1) ∧
    (∀ x, (∃ p ∈ partition 2 4 1, p.1 ≤ x ∧ x < p.2) ↔ (1 ≤ x ∧ x < 1 + 2 * 4)) :=
  c3_partition_spec (by decide) (by decide) (by decide)

/-! ### Accumulators of the worker engine -/

theorem ite_lt_eq_max (mx c : Nat) : (if mx < c then c else mx) = Nat.max mx c := by
  rcases Nat.lt_or_ge mx c with h | h
  · rw [if_pos h]
    exact (Nat.max_eq_right (Nat.le_of_lt h)).symm
  · rw [if_neg (Nat.not_lt.mpr h)]
    exact (Nat.max_eq_left h).symm

theorem le_foldl_max : ∀ (l : List Nat) (a : Nat), a ≤ l.foldl Nat.max a := by
  intro l
  induction l with
  | nil => intro a; exact Nat.le_refl a
  | cons y l ih => intro a; exact Nat.le_trans (Nat.le_max_left a y) (ih (Nat.max a y))

theorem foldl_max_le : ∀ (l : List Nat) (a x : Nat), x ∈ l → x ≤ l.foldl Nat.max a := by
  intro l
  induction l with
  | nil => intro a x hx; simp at hx
  | cons y l ih =>
    intro a x hx
    rcases List.mem_cons.mp hx with rfl | hx
    · exact Nat.le_trans (Nat.le_max_right a x) (le_foldl_max l (Nat.max a x))
    · exact ih (Nat.max a y) x hx

theorem foldl_max_mem : ∀ (l : List Nat) (a : Nat),
    l.foldl Nat.max a = a ∨ l.foldl Nat.max a ∈ l := by
  intro l
  induction l with
  | nil => intro a; exact Or.inl rfl
  | cons y l ih =>
    intro a
    rw [List.foldl_cons]
    rcases ih (Nat.max a y) with h | h
    · rw [h]
      rcases Nat.le_total a y with hy | hy
      · refine Or.inr ?_
        have hmy : Nat.max a y = y := Nat.max_eq_right hy
        rw [hmy]
        exact List.mem_cons_self y l
      · exact Or.inl (Nat.max_eq_left hy)
    · exact Or.inr (List.mem_cons_of_mem y h)

/-- The stepper always reports at least one transition (given that its
`uint64` counter cannot wrap within the fuel bound). -/
theorem iterate_count_pos {fuel s : Nat} {b : Bool} {c : Nat} (hfuel : fuel < u64Mod)
    (h : iterate fuel s = some (b, c)) : 1 ≤ c := by
  obtain ⟨k, hk1, hk2, hk3, _, _, _⟩ := iterateAux_sound s fuel s 0 b c h
  rw [hk3, Nat.zero_add, Nat.mod_eq_of_lt (lt_of_le_of_lt hk2 hfuel)]
  exact hk1

/-- Completing the per-seed fold computes the wrapped sum of the counts,
the running maximum of the counts, and appends the interesting seeds in
scan order. -/
theorem runFold_sound (fuel : Nat) :
    ∀ (seeds : List Nat) (rs : List (Bool × Nat)) (tot mx : Nat) (found : List Nat)
      (T MX : Nat) (F : List Nat),
      List.Forall₂ (fun s r => iterate fuel s = some r) seeds rs →
      tot < u64Mod →
      runFold fuel seeds tot mx found = some (T, MX, F) →
      T = (tot + (rs.map Prod.snd).sum) % u64Mod ∧
      MX = (rs.map Prod.snd).foldl Nat.max mx ∧
      F = found ++ (seeds.zip rs).filterMap (fun p => if p.2.1 then some p.1 else none) := by
  intro seeds rs tot mx found T MX F hall
  induction hall generalizing tot mx found with
  | nil =>
    intro htot h
    simp only [runFold, Option.some.injEq, Prod.mk.injEq] at h
    obtain ⟨h1, h2, h3⟩ := h
    refine ⟨?_, ?_, ?_⟩
    · simp [← h1, Nat.mod_eq_of_lt htot]
    · simp [← h2]
    · simp [← h3]
  | cons hsr hrest ih =>
    intro htot h
    rename_i s r seeds' rs'
    obtain ⟨b, c⟩ := r
    simp only [runFold, hsr] at h
    obtain ⟨h1, h2, h3⟩ :=
      ih ((tot + c) % u64Mod) (if mx < c then c else mx)
        (if b then found ++ [s] else found) (Nat.mod_lt _ (by decide)) h
    refine ⟨?_, ?_, ?_⟩
    · rw [h1, Nat.mod_add_mod, List.map_cons, List.sum_cons]
      congr 1
      omega
    · rw [h2, List.map_cons, List.foldl_cons, ite_lt_eq_max]
    · rw [h3, List.zip_cons_cons, List.filterMap_cons]
      cases b with
      | false => simp
      | true => simp

/-- Claim C5: when the crunch worker engine completes a packet, the
returned totalIterations is the `uint64` (wrapped) sum of the per-seed
stepper counts over all scanned seeds — the exact sum whenever that sum
fits in a `uint64` —, maxIterations is the maximum per-seed count
observed, and the interesting list contains exactly the scanned seeds the
stepper reported interesting, in the order they were scanned. -/
theorem c5_run_accumulators {fuel start ending T MX : Nat} {F : List Nat}
    {rs : List (Bool × Nat)}
    (hfuel : fuel < u64Mod)
    (hrs : List.Forall₂ (fun s r => iterate fuel s = some r) (scanSeedsCrunch ending start) rs)
    (h : run fuel start ending = some (T, MX, F)) :
    T = (rs.map Prod.snd).sum % u64Mod ∧
    ((rs.map Prod.snd).sum < u64Mod → T = (rs.map Prod.snd).sum) ∧
    MX = (rs.map Prod.snd).foldl Nat.max 0 ∧
    (∀ x ∈ rs.map Prod.snd, x ≤ MX) ∧ MX ∈ rs.map Prod.snd ∧
    F = ((scanSeedsCrunch ending start).zip rs).filterMap
      (fun p => if p.2.1 then some p.1 else none) := by
  rw [show run fuel start ending = runFold fuel (scanSeedsCrunch ending start) 0 0 []
    from runAux_eq_runFold fuel ending start 0 0 []] at h
  obtain ⟨hT, hMX, hF⟩ := runFold_sound fuel _ rs 0 0 [] T MX F hrs (by decide) h
  have hTs : T = (rs.map Prod.snd).sum % u64Mod := by simpa using hT
  have hne : scanSeedsCrunch ending start ≠ [] := by
    rw [scanSeedsCrunch.eq_def]
    split <;> simp
  obtain ⟨s0, ss, hs0⟩ := List.exists_cons_of_ne_nil hne
  rw [hs0] at hrs
  cases hrs with
  | cons hsr hrest =>
    rename_i r0 rs'
    have hpos : 1 ≤ r0.2 := iterate_count_pos hfuel hsr
    refine ⟨hTs, ?_, hMX, ?_, ?_, by simpa using hF⟩
    · intro hsum
      rw [hTs, Nat.mod_eq_of_lt hsum]
    · intro x hx
      rw [hMX]
      exact foldl_max_le _ 0 x hx
    · rcases foldl_max_mem (((r0 :: rs').map Prod.snd)) 0 with h0 | hm
      · exfalso
        have hmem : r0.2 ∈ (r0 :: rs').map Prod.snd := by simp
        have := foldl_max_le ((r0 :: rs').map Prod.snd) 0 r0.2 hmem
        omega
      · rw [hMX]
        exact hm

/-- Witness for claim C5 on the packet `[1, 5]` with fuel 100: the engine
returns totals `(23, 11, [1])` matching counts `[3, 6, 3, 11]`. -/
theorem c5_run_accumulators_witness :
    23 = (([(true, 3), (false, 6), (false, 3), (false, 11)] : List (Bool × Nat)).map
        Prod.snd).sum % u64Mod ∧
    ((([(true, 3), (false, 6), (false, 3), (false, 11)] : List (Bool × Nat)).map
        Prod.snd).sum < u64Mod →
      23 = (([(true, 3), (false, 6), (false, 3), (false, 11)] : List (Bool × Nat)).map
        Prod.snd).sum) ∧
    11 = (([(true, 3), (false, 6), (false, 3), (false, 11)] : List (Bool × Nat)).map
        Prod.snd).foldl Nat.max 0 ∧
    (∀ x ∈ (([(true, 3), (false, 6), (false, 3), (false, 11)] : List (Bool × Nat)).map
        Prod.snd), x ≤ 11) ∧
    11 ∈ (([(true, 3), (false, 6), (false, 3), (false, 11)] : List (Bool × Nat)).map
        Prod.snd) ∧
    [1] = ((scanSeedsCrunch 5 1).zip
        ([(true, 3), (false, 6), (false, 3), (false, 11)] : List (Bool × Nat))).filterMap
      (fun p => if p.2.1 then some p.1 else none) :=
  @c5_run_accumulators 100 1 5 23 11 [1] [(true, 3), (false, 6), (false, 3), (false, 11)]
    (by decide)
    (by rw [scanSeedsCrunch_five_one]
        exact List.Forall₂.cons rfl (List.Forall₂.cons rfl
          (List.Forall₂.cons rfl (List.Forall₂.cons rfl List.Forall₂.nil))))
    (by rw [show run 100 1 5 = runFold 100 (scanSeedsCrunch 5 1) 0 0 []
          from runAux_eq_runFold 100 5 1 0 0 [], scanSeedsCrunch_five_one]
        rfl)

/-! ### The result aggregator -/

theorem aggregate_foldl :
    ∀ (rs : List (Nat × Nat × List Nat)) (acc : Nat × Nat × List Nat),
      rs.foldl (fun a r => (a.1 + r.1, Nat.max a.2.1 r.2.1, a.2.2 ++ r.2.2)) acc =
        (acc.1 + (rs.map Prod.fst).sum,
          (rs.map (fun r => r.2.1)).foldl Nat.max acc.2.1,
          acc.2.2 ++ (rs.map (fun r => r.2.2)).flatten) := by
  intro rs
  induction rs with
  | nil => intro acc; simp
  | cons r rs ih =>
    intro acc
    rw [List.foldl_cons, ih]
    simp [Nat.add_assoc]

/-- Claim C9: the aggregator combines per-worker results by summing the
`totalIterations`, taking the maximum of the `maxIterations` (an observed
value whenever any worker reported), and concatenating the per-worker
interesting-seed sequences with each worker's internal order preserved;
on the spec's fixture of three workers with totals 10, 20, 30 it yields
60 and max 30. -/
theorem c9_aggregate_spec (rs : List (Nat × Nat × List Nat)) :
    (aggregate rs).1 = (rs.map Prod.fst).sum ∧
    (aggregate rs).2.1 = (rs.map (fun r => r.2.1)).foldl Nat.max 0 ∧
    (∀ x ∈ rs.map (fun r => r.2.1), x ≤ (aggregate rs).2.1) ∧
    ((aggregate rs).2.1 = 0 ∨ (aggregate rs).2.1 ∈ rs.map (fun r => r.2.1)) ∧
    (aggregate rs).2.2 = (rs.map (fun r => r.2.2)).flatten ∧
    aggregate [(10, 5, [101]), (20, 30, [103]), (30, 7, [])] = (60, 30, [101, 103]) := by
  have hagg := aggregate_foldl rs (0, 0, [])
  refine ⟨?_, ?_, ?_, ?_, ?_, by rfl⟩
  · rw [show aggregate rs =
      rs.foldl (fun a r => (a.1 + r.1, Nat.max a.2.1 r.2.1, a.2.2 ++ r.2.2)) (0, 0, [])
      from rfl, hagg]
    simp
  · rw [show aggregate rs =
      rs.foldl (fun a r => (a.1 + r.1, Nat.max a.2.1 r.2.1, a.2.2 ++ r.2.2)) (0, 0, [])
      from rfl, hagg]
  · intro x hx
    rw [show aggregate rs =
      rs.foldl (fun a r => (a.1 + r.1, Nat.max a.2.1 r.2.1, a.2.2 ++ r.2.2)) (0, 0, [])
      from rfl, hagg]
    exact foldl_max_le _ 0 x hx
  · rw [show aggregate rs =
      rs.foldl (fun a r => (a.1 + r.1, Nat.max a.2.1 r.2.1, a.2.2 ++ r.2.2)) (0, 0, [])
      from rfl, hagg]
    exact foldl_max_mem _ 0
  · rw [show aggregate rs =
      rs.foldl (fun a r => (a.1 + r.1, Nat.max a.2.1 r.2.1, a.2.2 ++ r.2.2)) (0, 0, [])
      from rfl, hagg]
    simp

/-! ### Frame properties of the stepper and the worker engine -/

/-- The stepper's cell updates never touch the seed cell. -/
theorem iterateStAux_frame : ∀ (fuel : Nat) (st : IterState) (cnt : Nat) (r : Bool × Nat)
    (st' : IterState), iterateStAux fuel st cnt = some (r, st') → st'.s = st.s := by
  intro fuel
  induction fuel with
  | zero => intro st cnt r st' h; simp [iterateStAux] at h
  | succ fuel ih =>
    intro st cnt r st' h
    simp only [iterateStAux] at h
    set st1 : IterState :=
      if st.n % 2 = 0 then { st with n := st.n / 2 } else { st with n := 3 * st.n + 1 }
      with hst1
    have hs1 : st1.s = st.s := by
      rw [hst1]; split <;> rfl
    split at h
    · simp only [Option.some.injEq, Prod.mk.injEq] at h
      obtain ⟨-, h2⟩ := h
      rw [← h2]; exact hs1
    · split at h
      · simp only [Option.some.injEq, Prod.mk.injEq] at h
        obtain ⟨-, h2⟩ := h
        rw [← h2]; exact hs1
      · exact (ih st1 _ _ _ h).trans hs1

/-- The worker loop's cell updates never touch the packet's bound cells. -/
theorem runStAux_frame (iterFuel : Nat) : ∀ (fuel : Nat) (st : RunState) (tot mx : Nat)
    (found : List Nat) (rr : Nat × Nat × List Nat) (st' : RunState),
    runStAux iterFuel fuel st tot mx found = some (rr, st') →
    st'.startingValue = st.startingValue ∧ st'.endingValue = st.endingValue := by
  intro fuel
  induction fuel with
  | zero => intro st tot mx found rr st' h; simp [runStAux] at h
  | succ fuel ih =>
    intro st tot mx found rr st' h
    simp only [runStAux] at h
    split at h
    · exact absurd h (by simp)
    · split at h
      · simp only [Option.some.injEq, Prod.mk.injEq] at h
        obtain ⟨-, h2⟩ := h
        rw [← h2]; exact ⟨rfl, rfl⟩
      · have hrec := ih _ _ _ _ _ _ h
        exact hrec

/-- Claim C10: the stepper never mutates the seed cell it is handed (it
works on a freshly allocated copy `n`), and the worker engine never
mutates its packet's StartingValue or EndingValue cells (it works on a
freshly allocated `current`): on completion every cell the caller shared
holds its original value. -/
theorem c10_no_mutation {ifuel sfuel cnt tot mx : Nat} {ist0 ist1 : IterState}
    {r : Bool × Nat} {rst0 rst1 : RunState} {rr : Nat × Nat × List Nat} {found : List Nat}
    (h1 : iterateStAux ifuel ist0 cnt = some (r, ist1))
    (h2 : runStAux ifuel sfuel rst0 tot mx found = some (rr, rst1)) :
    ist1.s = ist0.s ∧ rst1.startingValue = rst0.startingValue ∧
      rst1.endingValue = rst0.endingValue :=
  ⟨iterateStAux_frame ifuel ist0 cnt r ist1 h1,
    (runStAux_frame ifuel sfuel rst0 tot mx found rr rst1 h2).1,
    (runStAux_frame ifuel sfuel rst0 tot mx found rr rst1 h2).2⟩

/-- Witness for claim C10: stepping seed 3 (cells end as `(s, n) = (3, 2)`)
and running the packet `[1, 5]` (cells end as `(1, 5, 7)`). -/
theorem c10_no_mutation_witness :
    (IterState.mk 3 2).s = (IterState.mk 3 3).s ∧
    (RunState.mk 1 5 7).startingValue = (RunState.mk 1 5 1).startingValue ∧
    (RunState.mk 1 5 7).endingValue = (RunState.mk 1 5 1).endingValue :=
  @c10_no_mutation 100 10 0 0 0 (IterState.mk 3 3) (IterState.mk 3 2) (false, 6)
    (RunState.mk 1 5 1) (RunState.mk 1 5 7) (23, 11, [1]) [] rfl rfl

/-! ### Injectivity of the decimal representation -/

theorem toDigitsCore_append (b : Nat) : ∀ (f n : Nat) (l : List Char),
    Nat.toDigitsCore b f n l = Nat.toDigitsCore b f n [] ++ l := by
  intro f
  induction f with
  | zero => intro n l; simp [Nat.toDigitsCore]
  | succ f ih =>
    intro n l
    simp only [Nat.toDigitsCore]
    by_cases h : n / b = 0
    · simp [h]
    · rw [if_neg h, if_neg h, ih (n / b) (Nat.digitChar (n % b) :: l),
        ih (n / b) [Nat.digitChar (n % b)]]
      simp

theorem toDigitsCore_eq_decChars : ∀ (n f : Nat), n < f →
    Nat.toDigitsCore 10 f n [] = decChars n := by
  intro n
  induction n using Nat.strong_induction_on with
  | _ n ih =>
    intro f hf
    match f, hf with
    | f + 1, hf =>
      simp only [Nat.toDigitsCore]
      by_cases h : n / 10 = 0
      · have hn : n < 10 := by omega
        rw [if_pos h, decChars.eq_def, dif_pos hn, Nat.mod_eq_of_lt hn]
      · have hn : ¬ n < 10 := fun hlt => h (Nat.div_eq_of_lt hlt)
        have hdiv : n / 10 < n := Nat.div_lt_self (by omega) (by omega)
        rw [if_neg h, toDigitsCore_append 10 f (n / 10) [Nat.digitChar (n % 10)],
          ih (n / 10) hdiv f (by omega)]
        conv_rhs => rw [decChars.eq_def]
        rw [dif_neg hn]

theorem repr_eq_decChars (n : Nat) : Nat.repr n = (decChars n).asString := by
  show (Nat.toDigitsCore 10 (n + 1) n []).asString = _
  rw [toDigitsCore_eq_decChars n (n + 1) (Nat.lt_succ_self n)]

theorem digitChar_inj_fin : ∀ a : Fin 10, ∀ b : Fin 10,
    Nat.digitChar a = Nat.digitChar b → a = b := by decide

theorem digitChar_inj {a b : Nat} (ha : a < 10) (hb : b < 10)
    (h : Nat.digitChar a = Nat.digitChar b) : a = b :=
  congrArg Fin.val (digitChar_inj_fin ⟨a, ha⟩ ⟨b, hb⟩ h)

theorem decChars_ne_nil (n : Nat) : decChars n ≠ [] := by
  rw [decChars.eq_def]
  split
  · simp
  · simp

theorem decChars_injective : ∀ m n : Nat, decChars m = decChars n → m = n := by
  intro m
  induction m using Nat.strong_induction_on with
  | _ m ih =>
    intro n h
    by_cases hm : m < 10 <;> by_cases hn : n < 10
    · rw [decChars.eq_def m, dif_pos hm, decChars.eq_def n, dif_pos hn] at h
      simp only [List.cons.injEq, and_true] at h
      exact digitChar_inj hm hn h
    · exfalso
      rw [decChars.eq_def m, dif_pos hm, decChars.eq_def n, dif_neg hn] at h
      have hlen := congrArg List.length h
      simp only [List.length_singleton, List.length_append, List.length_cons,
        List.length_nil] at hlen
      have := decChars_ne_nil (n / 10)
      have h0 : (decChars (n / 10)).length = 0 := by omega
      exact this (List.eq_nil_of_length_eq_zero h0)
    · exfalso
      rw [decChars.eq_def m, dif_neg hm, decChars.eq_def n, dif_pos hn] at h
      have hlen := congrArg List.length h
      simp only [List.length_singleton, List.length_append, List.length_cons,
        List.length_nil] at hlen
      have := decChars_ne_nil (m / 10)
      have h0 : (decChars (m / 10)).length = 0 := by omega
      exact this (List.eq_nil_of_length_eq_zero h0)
    · rw [decChars.eq_def m, dif_neg hm, decChars.eq_def n, dif_neg hn] at h
      obtain ⟨h1, h2⟩ := List.append_inj' h (by simp)
      simp only [List.cons.injEq, and_true] at h2
      have hmod : m % 10 = n % 10 :=
        digitChar_inj (Nat.mod_lt _ (by omega)) (Nat.mod_lt _ (by omega)) h2
      have hdiv : m / 10 = n / 10 :=
        ih (m / 10) (Nat.div_lt_self (by omega) (by omega)) (n / 10) h1
      omega

/-- The decimal representation of a natural number determines the
number. -/
theorem natRepr_injective : Function.Injective Nat.repr := by
  intro m n h
  rw [repr_eq_decChars, repr_eq_decChars] at h
  exact decChars_injective m n (List.asString_inj.mp h)

/-! ### Sensitivity of the canonical evidence string to each field -/

theorem evidenceString_inj_ID (u : UserCredentials) (w : WorkPacket) (e : WorkEvidence)
    (x : String) (h : evidenceString u { w with ID := x } e = evidenceString u w e) :
    x = w.ID := by
  have hd := congrArg String.data h
  simp only [evidenceString, String.data_append, List.append_assoc] at hd
  exact String.toList_inj.mp (List.append_cancel_right hd)

theorem evidenceString_inj_Nonce (u : UserCredentials) (w : WorkPacket) (e : WorkEvidence)
    (x : String) (h : evidenceString u { w with Nonce := x } e = evidenceString u w e) :
    x = w.Nonce := by
  have hd := congrArg String.data h
  simp only [evidenceString, String.data_append, List.append_assoc] at hd
  replace hd := List.append_cancel_left hd
  replace hd := List.append_cancel_left hd
  exact String.toList_inj.mp (List.append_cancel_right hd)

theorem evidenceString_inj_StartingValue (u : UserCredentials) (w : WorkPacket)
    (e : WorkEvidence) (x : Nat)
    (h : evidenceString u { w with StartingValue := x } e = evidenceString u w e) :
    x = w.StartingValue := by
  have hd := congrArg String.data h
  simp only [evidenceString, String.data_append, List.append_assoc] at hd
  replace hd := List.append_cancel_left hd
  replace hd := List.append_cancel_left hd
  replace hd := List.append_cancel_left hd
  replace hd := List.append_cancel_left hd
  exact natRepr_injective (String.toList_inj.mp (List.append_cancel_right hd))

theorem evidenceString_inj_EndingValue (u : UserCredentials) (w : WorkPacket)
    (e : WorkEvidence) (x : Nat)
    (h : evidenceString u { w with EndingValue := x } e = evidenceString u w e) :
    x = w.EndingValue := by
  have hd := congrArg String.data h
  simp only [evidenceString, String.data_append, List.append_assoc] at hd
  replace hd := List.append_cancel_left hd
  replace hd := List.append_cancel_left hd
  replace hd := List.append_cancel_left hd
  replace hd := List.append_cancel_left hd
  replace hd := List.append_cancel_left hd
  replace hd := List.append_cancel_left hd
  exact natRepr_injective (String.toList_inj.mp (List.append_cancel_right hd))

theorem evidenceString_inj_UserID (u : UserCredentials) (w : WorkPacket) (e : WorkEvidence)
    (x : String) (h : evidenceString { u with UserID := x } w e = evidenceString u w e) :
    x = u.UserID := by
  have hd := congrArg String.data h
  simp only [evidenceString, String.data_append, List.append_assoc] at hd
  replace hd := List.append_cancel_left hd
  replace hd := List.append_cancel_left hd
  replace hd := List.append_cancel_left hd
  replace hd := List.append_cancel_left hd
  replace hd := List.append_cancel_left hd
  replace hd := List.append_cancel_left hd
  replace hd := List.append_cancel_left hd
  replace hd := List.append_cancel_left hd
  exact String.toList_inj.mp (List.append_cancel_right hd)

theorem evidenceString_inj_UserSecretVersion (u : UserCredentials) (w : WorkPacket)
    (e : WorkEvidence) (x : String)
    (h : evidenceString { u with UserSecretVersion := x } w e = evidenceString u w e) :
    x = u.UserSecretVersion := by
  have hd := congrArg String.data h
  simp only [evidenceString, String.data_append, List.append_assoc] at hd
  replace hd := List.append_cancel_left hd
  replace hd := List.append_cancel_left hd
  replace hd := List.append_cancel_left hd
  replace hd := List.append_cancel_left hd
  replace hd := List.append_cancel_left hd
  replace hd := List.append_cancel_left hd
  replace hd := List.append_cancel_left hd
  replace hd := List.append_cancel_left hd
  replace hd := List.append_cancel_left hd
  replace hd := List.append_cancel_left hd
  exact String.toList_inj.mp (List.append_cancel_right hd)

theorem evidenceString_inj_UserSecret (u : UserCredentials) (w : WorkPacket)
    (e : WorkEvidence) (x : String)
    (h : evidenceString { u with UserSecret := x } w e = evidenceString u w e) :
    x = u.UserSecret := by
  have hd := congrArg String.data h
  simp only [evidenceString, String.data_append, List.append_assoc] at hd
  replace hd := List.append_cancel_left hd
  replace hd := List.append_cancel_left hd
  replace hd := List.append_cancel_left hd
  replace hd := List.append_cancel_left hd
  replace hd := List.append_cancel_left hd
  replace hd := List.append_cancel_left hd
  replace hd := List.append_cancel_left hd
  replace hd := List.append_cancel_left hd
  replace hd := List.append_cancel_left hd
  replace hd := List.append_cancel_left hd
  replace hd := List.append_cancel_left hd
  replace hd := List.append_cancel_left hd
  exact String.toList_inj.mp (List.append_cancel_right hd)

theorem evidenceString_inj_TotalIterations (u : UserCredentials) (w : WorkPacket)
    (e : WorkEvidence) (x : Nat)
    (h : evidenceString u w { e with TotalIterations := x } = evidenceString u w e) :
    x = e.TotalIterations := by
  have hd := congrArg String.data h
  simp only [evidenceString, String.data_append, List.append_assoc] at hd
  replace hd := List.append_cancel_left hd
  replace hd := List.append_cancel_left hd
  replace hd := List.append_cancel_left hd
  replace hd := List.append_cancel_left hd
  replace hd := List.append_cancel_left hd
  replace hd := List.append_cancel_left hd
  replace hd := List.append_cancel_left hd
  replace hd := List.append_cancel_left hd
  replace hd := List.append_cancel_left hd
  replace hd := List.append_cancel_left hd
  replace hd := List.append_cancel_left hd
  replace hd := List.append_cancel_left hd
  replace hd := List.append_cancel_left hd
  replace hd := List.append_cancel_left hd
  exact natRepr_injective (String.toList_inj.mp (List.append_cancel_right hd))

theorem evidenceString_inj_MaxIterations (u : UserCredentials) (w : WorkPacket)
    (e : WorkEvidence) (x : Nat)
    (h : evidenceString u w { e with MaxIterations := x } = evidenceString u w e) :
    x = e.MaxIterations := by
  have hd := congrArg String.data h
  simp only [evidenceString, String.data_append, List.append_assoc] at hd
  replace hd := List.append_cancel_left hd
  replace hd := List.append_cancel_left hd
  replace hd := List.append_cancel_left hd
  replace hd := List.append_cancel_left hd
  replace hd := List.append_cancel_left hd
  replace hd := List.append_cancel_left hd
  replace hd := List.append_cancel_left hd
  replace hd := List.append_cancel_left hd
  replace hd := List.append_cancel_left hd
  replace hd := List.append_cancel_left hd
  replace hd := List.append_cancel_left hd
  replace hd := List.append_cancel_left hd
  replace hd := List.append_cancel_left hd
  replace hd := List.append_cancel_left hd
  replace hd := List.append_cancel_left hd
  replace hd := List.append_cancel_left hd
  exact natRepr_injective (String.toList_inj.mp hd)

theorem evidenceStringCrunch_inj_ID (w : WorkPacket) (e : WorkEvidence)
    (x : String) (h : evidenceStringCrunch { w with ID := x } e = evidenceStringCrunch w e) :
    x = w.ID := by
  have hd := congrArg String.data h
  simp only [evidenceStringCrunch, String.data_append, List.append_assoc] at hd
  exact String.toList_inj.mp (List.append_cancel_right hd)

theorem evidenceStringCrunch_inj_Nonce (w : WorkPacket) (e : WorkEvidence)
    (x : String)
    (h : evidenceStringCrunch { w with Nonce := x } e = evidenceStringCrunch w e) :
    x = w.Nonce := by
  have hd := congrArg String.data h
  simp only [evidenceStringCrunch, String.data_append, List.append_assoc] at hd
  replace hd := List.append_cancel_left hd
  replace hd := List.append_cancel_left hd
  exact String.toList_inj.mp (List.append_cancel_right hd)

theorem evidenceStringCrunch_inj_StartingValue (w : WorkPacket) (e : WorkEvidence)
    (x : Nat)
    (h : evidenceStringCrunch { w with StartingValue := x } e = evidenceStringCrunch w e) :
    x = w.StartingValue := by
  have hd := congrArg String.data h
  simp only [evidenceStringCrunch, String.data_append, List.append_assoc] at hd
  replace hd := List.append_cancel_left hd
  replace hd := List.append_cancel_left hd
  replace hd := List.append_cancel_left hd
  replace hd := List.append_cancel_left hd
  exact natRepr_injective (String.toList_inj.mp (List.append_cancel_right hd))

theorem evidenceStringCrunch_inj_EndingValue (w : WorkPacket) (e : WorkEvidence)
    (x : Nat)
    (h : evidenceStringCrunch { w with EndingValue := x } e = evidenceStringCrunch w e) :
    x = w.EndingValue := by
  have hd := congrArg String.data h
  simp only [evidenceStringCrunch, String.data_append, List.append_assoc] at hd
  replace hd := List.append_cancel_left hd
  replace hd := List.append_cancel_left hd
  replace hd := List.append_cancel_left hd
  replace hd := List.append_cancel_left hd
  replace hd := List.append_cancel_left hd
  replace hd := List.append_cancel_left hd
  exact natRepr_injective (String.toList_inj.mp (List.append_cancel_right hd))

theorem evidenceStringCrunch_inj_TotalIterations (w : WorkPacket) (e : WorkEvidence)
    (x : Nat)
    (h : evidenceStringCrunch w { e with TotalIterations := x } = evidenceStringCrunch w e) :
    x = e.TotalIterations := by
  have hd := congrArg String.data h
  simp only [evidenceStringCrunch, String.data_append, List.append_assoc] at hd
  replace hd := List.append_cancel_left hd
  replace hd := List.append_cancel_left hd
  replace hd := List.append_cancel_left hd
  replace hd := List.append_cancel_left hd
  replace hd := List.append_cancel_left hd
  replace hd := List.append_cancel_left hd
  replace hd := List.append_cancel_left hd
  replace hd := List.append_cancel_left hd
  exact natRepr_injective (String.toList_inj.mp (List.append_cancel_right hd))

theorem evidenceStringCrunch_inj_MaxIterations (w : WorkPacket) (e : WorkEvidence)
    (x : Nat)
    (h : evidenceStringCrunch w { e with MaxIterations := x } = evidenceStringCrunch w e) :
    x = e.MaxIterations := by
  have hd := congrArg String.data h
  simp only [evidenceStringCrunch, String.data_append, List.append_assoc] at hd
  replace hd := List.append_cancel_left hd
  replace hd := List.append_cancel_left hd
  replace hd := List.append_cancel_left hd
  replace hd := List.append_cancel_left hd
  replace hd := List.append_cancel_left hd
  replace hd := List.append_cancel_left hd
  replace hd := List.append_cancel_left hd
  replace hd := List.append_cancel_left hd
  replace hd := List.append_cancel_left hd
  replace hd := List.append_cancel_left hd
  exact natRepr_injective (String.toList_inj.mp hd)

/-- Claim C4 (amended): the part_000 `evidenceHash` hashes the ordered,
colon-separated concatenation of all nine fields (packet id, nonce, start
and end values in decimal, user id, user-secret version, user secret,
total iterations, max iterations) and returns a record with the
credentials' UserSecretVersion and AuthenticatorVersion "v1-blake3"; the
`app/crunch/main.go` variant returns the same record shape but hashes
only the six packet/evidence fields, omitting the user id, the
user-secret version and the user secret from the hashed text. -/
theorem c4_evidence_hash_canonical (H : String → String) (u : UserCredentials)
    (w : WorkPacket) (e : WorkEvidence) :
    evidenceHash H u w e =
      { AuthenticatorVersion := "v1-blake3", UserSecretVersion := u.UserSecretVersion,
        Authenticator := H (String.intercalate ":" [w.ID, w.Nonce,
          toString w.StartingValue, toString w.EndingValue, u.UserID,
          u.UserSecretVersion, u.UserSecret, toString e.TotalIterations,
          toString e.MaxIterations]) } ∧
    evidenceHashCrunch H u w e =
      { AuthenticatorVersion := "v1-blake3", UserSecretVersion := u.UserSecretVersion,
        Authenticator := H (String.intercalate ":" [w.ID, w.Nonce,
          toString w.StartingValue, toString w.EndingValue,
          toString e.TotalIterations, toString e.MaxIterations]) } :=
  ⟨rfl, rfl⟩

/-- Counterexample to claim C4 as stated: with the digest abstracted as
the identity function, the crunch `evidenceHash` does not hash the
ordered nine-field concatenation — the credential fields are absent from
the hashed text, and two credential sets differing in user id and secret
produce identical authenticators. -/
theorem c4_counterexample :
    (evidenceHashCrunch (fun s => s) ⟨"alice", "v7", "topsecret"⟩
        ⟨"pid", "nonce1", 3, 11⟩ ⟨5, 4⟩).Authenticator ≠
      String.intercalate ":" ["pid", "nonce1", "3", "11", "alice", "v7", "topsecret",
        "5", "4"] ∧
    (evidenceHashCrunch (fun s => s) ⟨"alice", "v7", "topsecret"⟩
        ⟨"pid", "nonce1", 3, 11⟩ ⟨5, 4⟩).Authenticator =
      (evidenceHashCrunch (fun s => s) ⟨"bob", "v7", "other"⟩
        ⟨"pid", "nonce1", 3, 11⟩ ⟨5, 4⟩).Authenticator :=
  ⟨by decide, rfl⟩

/-- Claim C6 (amended): both `evidenceHash` variants are deterministic —
equal inputs give byte-identical output, the embedding being a pure
function of the listed fields with no randomness or timestamp.  For an
injective digest, changing any single hashed field changes the output
authenticator: all nine fields for the part_000 variant, and the six
packet/evidence fields for the crunch variant.  In the crunch variant the
credential fields do not enter the hashed text at all, so its digest is
entirely insensitive to them. -/
theorem c6_authenticator_determinism_avalanche {H : String → String}
    (hH : Function.Injective H) :
    (∀ u1 u2 w1 w2 e1 e2, u1 = u2 → w1 = w2 → e1 = e2 →
      evidenceHash H u1 w1 e1 = evidenceHash H u2 w2 e2 ∧
      evidenceHashCrunch H u1 w1 e1 = evidenceHashCrunch H u2 w2 e2) ∧
    (∀ u w e x, x ≠ w.ID →
      (evidenceHash H u { w with ID := x } e).Authenticator ≠
        (evidenceHash H u w e).Authenticator) ∧
    (∀ u w e x, x ≠ w.Nonce →
      (evidenceHash H u { w with Nonce := x } e).Authenticator ≠
        (evidenceHash H u w e).Authenticator) ∧
    (∀ u w e x, x ≠ w.StartingValue →
      (evidenceHash H u { w with StartingValue := x } e).Authenticator ≠
        (evidenceHash H u w e).Authenticator) ∧
    (∀ u w e x, x ≠ w.EndingValue →
      (evidenceHash H u { w with EndingValue := x } e).Authenticator ≠
        (evidenceHash H u w e).Authenticator) ∧
    (∀ u w e x, x ≠ u.UserID →
      (evidenceHash H { u with UserID := x } w e).Authenticator ≠
        (evidenceHash H u w e).Authenticator) ∧
    (∀ u w e x, x ≠ u.UserSecretVersion →
      (evidenceHash H { u with UserSecretVersion := x } w e).Authenticator ≠
        (evidenceHash H u w e).Authenticator) ∧
    (∀ u w e x, x ≠ u.UserSecret →
      (evidenceHash H { u with UserSecret := x } w e).Authenticator ≠
        (evidenceHash H u w e).Authenticator) ∧
    (∀ u w e x, x ≠ e.TotalIterations →
      (evidenceHash H u w { e with TotalIterations := x }).Authenticator ≠
        (evidenceHash H u w e).Authenticator) ∧
    (∀ u w e x, x ≠ e.MaxIterations →
      (evidenceHash H u w { e with MaxIterations := x }).Authenticator ≠
        (evidenceHash H u w e).Authenticator) ∧
    (∀ u w e x, x ≠ w.ID →
      (evidenceHashCrunch H u { w with ID := x } e).Authenticator ≠
        (evidenceHashCrunch H u w e).Authenticator) ∧
    (∀ u w e x, x ≠ w.Nonce →
      (evidenceHashCrunch H u { w with Nonce := x } e).Authenticator ≠
        (evidenceHashCrunch H u w e).Authenticator) ∧
    (∀ u w e x, x ≠ w.StartingValue →
      (evidenceHashCrunch H u { w with StartingValue := x } e).Authenticator ≠
        (evidenceHashCrunch H u w e).Authenticator) ∧
    (∀ u w e x, x ≠ w.EndingValue →
      (evidenceHashCrunch H u { w with EndingValue := x } e).Authenticator ≠
        (evidenceHashCrunch H u w e).Authenticator) ∧
    (∀ u w e x, x ≠ e.TotalIterations →
      (evidenceHashCrunch H u w { e with TotalIterations := x }).Authenticator ≠
        (evidenceHashCrunch H u w e).Authenticator) ∧
    (∀ u w e x, x ≠ e.MaxIterations →
      (evidenceHashCrunch H u w { e with MaxIterations := x }).Authenticator ≠
        (evidenceHashCrunch H u w e).Authenticator) ∧
    (∀ u1 u2 w e, (evidenceHashCrunch H u1 w e).Authenticator =
      (evidenceHashCrunch H u2 w e).Authenticator) := by
  refine ⟨?_, ?_, ?_, ?_, ?_, ?_, ?_, ?_, ?_, ?_, ?_, ?_, ?_, ?_, ?_, ?_, ?_⟩
  · rintro u1 u2 w1 w2 e1 e2 rfl rfl rfl
    exact ⟨rfl, rfl⟩
  · exact fun u w e x hne heq => hne (evidenceString_inj_ID u w e x (hH heq))
  · exact fun u w e x hne heq => hne (evidenceString_inj_Nonce u w e x (hH heq))
  · exact fun u w e x hne heq => hne (evidenceString_inj_StartingValue u w e x (hH heq))
  · exact fun u w e x hne heq => hne (evidenceString_inj_EndingValue u w e x (hH heq))
  · exact fun u w e x hne heq => hne (evidenceString_inj_UserID u w e x (hH heq))
  · exact fun u w e x hne heq => hne (evidenceString_inj_UserSecretVersion u w e x (hH heq))
  · exact fun u w e x hne heq => hne (evidenceString_inj_UserSecret u w e x (hH heq))
  · exact fun u w e x hne heq => hne (evidenceString_inj_TotalIterations u w e x (hH heq))
  · exact fun u w e x hne heq => hne (evidenceString_inj_MaxIterations u w e x (hH heq))
  · exact fun u w e x hne heq => hne (evidenceStringCrunch_inj_ID w e x (hH heq))
  · exact fun u w e x hne heq => hne (evidenceStringCrunch_inj_Nonce w e x (hH heq))
  · exact fun u w e x hne heq => hne (evidenceStringCrunch_inj_StartingValue w e x (hH heq))
  · exact fun u w e x hne heq => hne (evidenceStringCrunch_inj_EndingValue w e x (hH heq))
  · exact fun u w e x hne heq => hne (evidenceStringCrunch_inj_TotalIterations w e x (hH heq))
  · exact fun u w e x hne heq => hne (evidenceStringCrunch_inj_MaxIterations w e x (hH heq))
  · exact fun u1 u2 w e => rfl

/-- Witness for claim C6 (amended) with the identity digest: determinism
at a concrete input, the spec's avalanche example (totalIterations changed
by 1) for the part_000 variant, and the userID avalanche for the part_000
variant. -/
theorem c6_authenticator_witness :
    evidenceHash (fun s => s) ⟨"alice", "v7", "sec"⟩ ⟨"pid", "n1", 3, 11⟩ ⟨5, 4⟩ =
      evidenceHash (fun s => s) ⟨"alice", "v7", "sec"⟩ ⟨"pid", "n1", 3, 11⟩ ⟨5, 4⟩ ∧
    (evidenceHash (fun s => s) ⟨"alice", "v7", "sec"⟩ ⟨"pid", "n1", 3, 11⟩
        ⟨4, 4⟩).Authenticator ≠
      (evidenceHash (fun s => s) ⟨"alice", "v7", "sec"⟩ ⟨"pid", "n1", 3, 11⟩
        ⟨5, 4⟩).Authenticator ∧
    (evidenceHash (fun s => s) ⟨"bob", "v7", "sec"⟩ ⟨"pid", "n1", 3, 11⟩
        ⟨5, 4⟩).Authenticator ≠
      (evidenceHash (fun s => s) ⟨"alice", "v7", "sec"⟩ ⟨"pid", "n1", 3, 11⟩
        ⟨5, 4⟩).Authenticator := by
  have hinj : Function.Injective (fun s : String => s) := fun a b hab => hab
  have hc6 := c6_authenticator_determinism_avalanche hinj
  refine ⟨(hc6.1 _ _ _ _ _ _ rfl rfl rfl).1, ?_, ?_⟩
  · exact hc6.2.2.2.2.2.2.2.2.1 ⟨"alice", "v7", "sec"⟩ ⟨"pid", "n1", 3, 11⟩ ⟨5, 4⟩ 4
      (by decide)
  · exact hc6.2.2.2.2.2.1 ⟨"alice", "v7", "sec"⟩ ⟨"pid", "n1", 3, 11⟩ ⟨5, 4⟩ "bob"
      (by decide)

/-- Counterexample to claim C6 as stated: in the `app/crunch/main.go`
variant changing the credential field userID does not change the output
digest — the two authenticators below are identical although the user ids
differ. -/
theorem c6_counterexample :
    (evidenceHashCrunch (fun s => s) ⟨"alice", "v1", "sec"⟩
        ⟨"pkt", "n0", 7, 9⟩ ⟨2, 1⟩).Authenticator =
      (evidenceHashCrunch (fun s => s) ⟨"carol", "v1", "sec"⟩
        ⟨"pkt", "n0", 7, 9⟩ ⟨2, 1⟩).Authenticator ∧
    ("alice" : String) ≠ "carol" :=
  ⟨rfl, by decide⟩

end Collatz
